import Mathlib

/-!
Verification of the coverage-checking pipeline of go-testcov (`src/main.go`).
The Go code is shallowly embedded: pure string/list manipulation becomes Lean
functions over `String`/`List Char`; file-system access (`os.Stat`, reading
files) is abstracted into an explicit map `Fs` from paths to optional file
contents; fatal errors (a `check(err)` abort on an unreadable file) become
`Option`-valued results.  The compiled regular expressions of the source are
embedded as executable matchers implementing RE2 semantics for the concrete
patterns (`.` does not match a newline, `$` matches only the end of the text,
`\s` is `[\t\n\f\r ]`, matching is unanchored substring search).
-/

namespace GoTestcov

/-- File system abstraction: a path is readable iff it is mapped to `some`
content.  `os.Stat` succeeding is modelled as membership in the map. -/
def Fs : Type := String → Option String

/-- Existence check, modelling a successful `os.Stat`. -/
def fexists (fs : Fs) (p : String) : Bool := (fs p).isSome

/-- Build a `String` from its character list. -/
def mkStr (cs : List Char) : String := String.mk cs

/-- Split a character list at every occurrence of `sep`
(the semantics of Go `strings.Split` with a one-character separator). -/
def splitCh (sep : Char) : List Char → List (List Char)
  | [] => [[]]
  | c :: cs =>
    match splitCh sep cs with
    | [] => [[]]
    | p :: ps => if c = sep then [] :: p :: ps else (c :: p) :: ps

/-- Go `strings.Split(s, sep)` for a one-character separator. -/
def splitChar (sep : Char) (s : String) : List String :=
  (splitCh sep s.data).map mkStr

/-- Modelled from the spec: the repository's `splitWithoutEmpty` helper
(defined outside `src/`) splits on the separator and discards empty pieces,
so the profile is seen as its sequence of non-empty lines. -/
def splitWithoutEmpty (s : String) (sep : Char) : List String :=
  (splitChar sep s).filter (fun l => decide (l ≠ ""))

/-- Go `strings.Join(parts, sep)`. -/
def joinSep (sep : String) : List String → String
  | [] => ""
  | [x] => x
  | x :: y :: xs => x ++ sep ++ joinSep sep (y :: xs)

/-- Go `strings.HasSuffix(s, suf)`. -/
def hasSuffixStr (s suf : String) : Bool := suf.data.isSuffixOf s.data

/-- Modelled from the spec: the repository's `stringToInt` helper on the
all-digit strings captured by its regular expressions is decimal conversion. -/
def digitsToNat (ds : List Char) : Nat :=
  ds.foldl (fun acc c => acc * 10 + (c.toNat - 48)) 0

/-- One contiguous uncovered region of a coverage profile record.
The field names follow the Go `Section` struct used by `src/main.go`. -/
structure Section where
  path : String
  startLine : Nat
  startCol : Nat
  endLine : Nat
  endCol : Nat
  sortValue : Nat
deriving DecidableEq

/-- Digit-run parse: value of the leading digits and the rest. -/
def parseNatPre (cs : List Char) : Nat × List Char :=
  (digitsToNat (cs.takeWhile Char.isDigit), cs.dropWhile Char.isDigit)

/-- Modelled from the spec: the Region constructor `NewSection` (defined
outside `src/`) parses one record `path:startLine.startCol,endLine.endCol
numStmt hitCount`; `sortValue` is a derived key encoding the start position
(line, then column) so ties on `startLine` resolve consistently. -/
def NewSection (line : String) : Section :=
  let cs := line.data
  let path := mkStr (cs.takeWhile (fun c => decide (c ≠ ':')))
  let r0 := (cs.dropWhile (fun c => decide (c ≠ ':'))).drop 1
  let p1 := parseNatPre r0
  let p2 := parseNatPre (p1.2.drop 1)
  let p3 := parseNatPre (p2.2.drop 1)
  let p4 := parseNatPre (p3.2.drop 1)
  { path := path, startLine := p1.1, startCol := p2.1,
    endLine := p3.1, endCol := p4.1,
    sortValue := p1.1 * 100000 + p2.1 }

/-- Modelled from the spec: the Region's `Location()` renders the line/column
range in the notation of the coverage tool, `sl.sc,el.ec`. -/
def Section.Location (s : Section) : String :=
  toString s.startLine ++ "." ++ toString s.startCol ++ "," ++
    toString s.endLine ++ "." ++ toString s.endCol

/-- The parser `untestedSections` of `src/main.go` (the file read is
abstracted to the profile's content): drop the mode line, keep every
line ending in `" 0"`, one Region per kept line. -/
def untestedSections (content : String) : List Section :=
  let lines := splitWithoutEmpty content '\n'
  if lines.length = 0 then []
  else ((lines.drop 1).filter (fun l => hasSuffixStr l " 0")).map NewSection

/-- The record lines of a profile: its non-empty lines with the first
(mode) line discarded. -/
def recordLines (content : String) : List String :=
  (splitWithoutEmpty content '\n').drop 1

/-- The trailing space-separated token of a line: the run of characters
after the last space, provided the line contains a space at all (the
profile's grammar delimits its trailing fields with single spaces, so a
line without a space has no separable trailing hit-count token). -/
def lastSpaceToken (cs : List Char) : Option (List Char) :=
  if ' ' ∈ cs then some ((cs.reverse.takeWhile (fun c => decide (c ≠ ' '))).reverse)
  else none

theorem prefix_zero_space_iff (r : List Char) :
    (['0', ' '] <+: r) ↔
      (' ' ∈ r ∧ r.takeWhile (fun c => decide (c ≠ ' ')) = ['0']) := by
  constructor
  · rintro ⟨t, ht⟩
    subst ht
    refine ⟨by simp, ?_⟩
    simp [List.takeWhile_cons]
  · rintro ⟨hmem, htw⟩
    cases r with
    | nil => simp at hmem
    | cons c r' =>
      rw [List.takeWhile_cons] at htw
      by_cases hc : c = ' '
      · subst hc; simp at htw
      · rw [if_pos (by simpa using hc)] at htw
        have hc0 : c = '0' := by
          have := congrArg (fun l => l.head?) htw
          simpa using this
        have htw' : r'.takeWhile (fun c => decide (c ≠ ' ')) = [] := by
          have := congrArg (fun l => l.tail) htw
          simpa using this
        subst hc0
        cases r' with
        | nil => simp at hmem
        | cons d r'' =>
          rw [List.takeWhile_cons] at htw'
          by_cases hd : d = ' '
          · subst hd; exact ⟨r'', rfl⟩
          · rw [if_pos (by simpa using hd)] at htw'
            simp at htw'

theorem hasSuffix_space_zero (l : String) :
    hasSuffixStr l " 0" = true ↔ lastSpaceToken l.data = some ['0'] := by
  unfold hasSuffixStr lastSpaceToken
  rw [show (" 0".data = [' ', '0']) from rfl, List.isSuffixOf_iff_suffix,
    ← List.reverse_prefix, show ([' ', '0'].reverse = ['0', ' ']) from rfl,
    prefix_zero_space_iff]
  by_cases hm : ' ' ∈ l.data
  · rw [if_pos hm]
    constructor
    · rintro ⟨_, htw⟩
      rw [htw]
      simp
    · intro h
      refine ⟨by simpa using hm, ?_⟩
      have : (l.data.reverse.takeWhile (fun c => decide (c ≠ ' '))).reverse = ['0'] := by
        simpa using h
      rw [show (['0'] : List Char) = ['0'].reverse from rfl] at this
      exact List.reverse_inj.mp this
  · rw [if_neg hm]
    constructor
    · rintro ⟨hmem, _⟩
      exact absurd (by simpa using hmem) hm
    · intro h; cases h

/-- Claim C1: for every coverage profile text, `untestedSections` returns
exactly one Region per record line (the non-empty lines after the discarded
first mode line) whose trailing space-separated hit-count token is exactly
`"0"`, and — being a `filter` followed by a `map` — it preserves the order
in which those records occur in the profile. -/
theorem untestedSections_zero_hit (content : String) :
    untestedSections content =
      ((recordLines content).filter
        (fun l => decide (lastSpaceToken l.data = some ['0']))).map NewSection := by
  unfold untestedSections recordLines
  by_cases h : (splitWithoutEmpty content '\n').length = 0
  · rw [if_pos h]
    rw [List.length_eq_zero] at h
    rw [h]
    rfl
  · rw [if_neg h]
    congr 1
    apply List.filter_congr
    intro l _
    by_cases hz : lastSpaceToken l.data = some ['0']
    · simp [hz, (hasSuffix_space_zero l).mpr hz]
    · simp only [hz, decide_False]
      cases hh : hasSuffixStr l " 0" with
      | false => rfl
      | true => exact absurd ((hasSuffix_space_zero l).mp hh) hz

/-- RE2 whitespace class `\s`, which is `[\t\n\f\r ]`. -/
def isWsRE2 (c : Char) : Bool :=
  c = ' ' || c = '\t' || c = '\n' || c = '\x0c' || c = '\r'

/-- The delimiter alternative `(\s|,)` after the marker phrase. -/
def inlineMarkDelim (c : Char) : Bool := isWsRE2 c || c = ','

def untestedSectionLit : List Char := "untested section".data

/-- Matches `untested section(\s|,|$)` at the start of the list (`$` is the
end of the text). -/
def markAt (cs : List Char) : Bool :=
  untestedSectionLit.isPrefixOf cs &&
    (match cs.drop untestedSectionLit.length with
     | [] => true
     | c :: _ => inlineMarkDelim c)

/-- Searches `.*untested section(\s|,|$)` from the start of the list: the
dot does not match a newline, so the search cannot skip past one. -/
def markSearch : List Char → Bool
  | [] => false
  | c :: cs => markAt (c :: cs) || (decide (c ≠ '\n') && markSearch cs)

def anyIgnoreSearch : List Char → Bool
  | [] => false
  | c :: cs =>
    (['/', '/'].isPrefixOf (c :: cs) && markSearch ((c :: cs).drop 2)) ||
      anyIgnoreSearch cs

/-- The compiled pattern `anyInlineIgnore = //.*untested section(\s|,|$)` of
`src/main.go:12-13`, as used through `MatchString` (unanchored search). -/
def anyInlineIgnore (l : String) : Bool := anyIgnoreSearch l.data

/-- The compiled pattern `startsWithInlineIgnore = ^\s*` + the inline pattern
(`src/main.go:14`).  The leading `\s*` must consume every leading whitespace
character, because the next required character `/` is not whitespace. -/
def startsIgnoreSearch (cs : List Char) : Bool :=
  let rest := cs.dropWhile isWsRE2
  ['/', '/'].isPrefixOf rest && markSearch (rest.drop 2)

def startsWithInlineIgnore (l : String) : Bool := startsIgnoreSearch l.data

/-- Matches `generated.*\.go$` at the start of the list. -/
def genAt (cs : List Char) : Bool :=
  "generated".data.isPrefixOf cs &&
    (let ds := cs.drop "generated".data.length
     ['.', 'g', 'o'].isSuffixOf ds &&
       (ds.take (ds.length - 3)).all (fun c => decide (c ≠ '\n')))

def genSearch : List Char → Bool
  | [] => false
  | c :: cs => genAt (c :: cs) || genSearch cs

/-- The compiled pattern `generatedFile = /*generated.*\.go$` of
`src/main.go:16`: `/*` (zero or more slashes) is subsumed by the unanchored
substring search, so a path matches iff `generated.*\.go$` matches at some
position. -/
def generatedFile (path : String) : Bool := genSearch path.data

theorem startsIgnore_imp_anyIgnore :
    ∀ cs : List Char, startsIgnoreSearch cs = true → anyIgnoreSearch cs = true := by
  intro cs
  induction cs with
  | nil => intro h; exact absurd h (by decide)
  | cons c cs ih =>
    intro h
    unfold startsIgnoreSearch at h
    by_cases hw : isWsRE2 c = true
    · rw [List.dropWhile_cons, if_pos hw] at h
      have := ih h
      unfold anyIgnoreSearch
      simp [this]
    · rw [List.dropWhile_cons, if_neg hw] at h
      unfold anyIgnoreSearch
      simp only [Bool.or_eq_true]
      left
      exact h

theorem startsWith_imp_any (l : String) :
    startsWithInlineIgnore l = true → anyInlineIgnore l = true :=
  startsIgnore_imp_anyIgnore l.data

/-- One pass of the scanning loop of `removeSectionsMarkedWithInlineComment`
(`src/main.go:109-117`), with `fuel` remaining iterations, at current line
number `n`; `true` means the loop reached `lineNumber == endLine` with no
marker found, i.e. the section is kept.  Running out of fuel without
reaching `endLine` (only possible when the loop body never runs) leaves the
section unappended. -/
def sectionScan (lines : List String) (endL : Nat) : Nat → Nat → Bool
  | 0, _ => false
  | fuel + 1, n =>
    if anyInlineIgnore (lines.getD (n - 1) "") then false
    else if 2 ≤ n then
      if startsWithInlineIgnore (lines.getD (n - 2) "") then false
      else if n = endL then true
      else sectionScan lines endL fuel (n + 1)
    else if n = endL then true
    else sectionScan lines endL fuel (n + 1)

/-- Whether the loop keeps section `s`: scan line numbers
`startLine..endLine` (exactly `endLine + 1 - startLine` iterations). -/
def keepSection (s : Section) (lines : List String) : Bool :=
  sectionScan lines s.endLine (s.endLine + 1 - s.startLine) s.startLine

/-- `removeSectionsMarkedWithInlineComment` of `src/main.go:105-120`:
keep, in order, the sections whose scan finds no suppression marker. -/
def removeSectionsMarkedWithInlineComment (sections : List Section)
    (lines : List String) : List Section :=
  sections.filter (fun s => keepSection s lines)

/-- The drop condition as the spec states it: some line within
`[startLine, endLine]` matches the inline marker pattern, or the line
immediately preceding `startLine` starts (after leading whitespace) with
the marker pattern. -/
def sectionDropCond (s : Section) (lines : List String) : Bool :=
  ((List.range' s.startLine (s.endLine + 1 - s.startLine)).any
      (fun n => anyInlineIgnore (lines.getD (n - 1) ""))) ||
    (decide (2 ≤ s.startLine) &&
      startsWithInlineIgnore (lines.getD (s.startLine - 2) ""))

theorem sectionScan_eq_true_iff (lines : List String) (endL : Nat) :
    ∀ fuel n, fuel = endL + 1 - n → n ≤ endL →
      (sectionScan lines endL fuel n = true ↔
        ((∀ k, n ≤ k → k ≤ endL → anyInlineIgnore (lines.getD (k - 1) "") = false) ∧
         (2 ≤ n → startsWithInlineIgnore (lines.getD (n - 2) "") = false))) := by
  intro fuel
  induction fuel with
  | zero => intro n hf hn; omega
  | succ fuel ih =>
    intro n hf hn
    unfold sectionScan
    by_cases hany : anyInlineIgnore (lines.getD (n - 1) "") = true
    · rw [if_pos hany]
      constructor
      · intro h; exact absurd h (by decide)
      · rintro ⟨h1, _⟩
        exact absurd hany (Bool.eq_false_iff.mp (h1 n le_rfl hn))
    · have hanyf : anyInlineIgnore (lines.getD (n - 1) "") = false :=
        Bool.eq_false_iff.mpr hany
      rw [if_neg hany]
      have hstf1 : startsWithInlineIgnore (lines.getD (n - 1) "") = false := by
        cases hst : startsWithInlineIgnore (lines.getD (n - 1) "") with
        | false => rfl
        | true => exact absurd (startsWith_imp_any _ hst) hany
      by_cases h2 : 2 ≤ n
      · rw [if_pos h2]
        by_cases hst : startsWithInlineIgnore (lines.getD (n - 2) "") = true
        · rw [if_pos hst]
          constructor
          · intro h; exact absurd h (by decide)
          · rintro ⟨_, hlb⟩
            exact absurd hst (Bool.eq_false_iff.mp (hlb h2))
        · have hstf : startsWithInlineIgnore (lines.getD (n - 2) "") = false :=
            Bool.eq_false_iff.mpr hst
          rw [if_neg hst]
          by_cases hend : n = endL
          · rw [if_pos hend]
            simp only [true_iff]
            refine ⟨fun k hk1 hk2 => ?_, fun _ => hstf⟩
            have : k = n := by omega
            rw [this]; exact hanyf
          · rw [if_neg hend]
            rw [ih (n + 1) (by omega) (by omega)]
            constructor
            · rintro ⟨ha, _⟩
              refine ⟨fun k hk1 hk2 => ?_, fun _ => hstf⟩
              rcases Nat.eq_or_lt_of_le hk1 with he | hl
              · rw [← he]; exact hanyf
              · exact ha k hl hk2
            · rintro ⟨ha, _⟩
              refine ⟨fun k hk1 hk2 => ha k (by omega) hk2, fun _ => ?_⟩
              have : n + 1 - 2 = n - 1 := by omega
              rw [this]; exact hstf1
      · rw [if_neg h2]
        by_cases hend : n = endL
        · rw [if_pos hend]
          simp only [true_iff]
          refine ⟨fun k hk1 hk2 => ?_, fun hc => absurd hc h2⟩
          have : k = n := by omega
          rw [this]; exact hanyf
        · rw [if_neg hend]
          rw [ih (n + 1) (by omega) (by omega)]
          constructor
          · rintro ⟨ha, _⟩
            refine ⟨fun k hk1 hk2 => ?_, fun hc => absurd hc h2⟩
            rcases Nat.eq_or_lt_of_le hk1 with he | hl
            · rw [← he]; exact hanyf
            · exact ha k hl hk2
          · rintro ⟨ha, _⟩
            refine ⟨fun k hk1 hk2 => ha k (by omega) hk2, fun _ => ?_⟩
            have : n + 1 - 2 = n - 1 := by omega
            rw [this]; exact hstf1

theorem keepSection_iff (s : Section) (lines : List String)
    (hse : s.startLine ≤ s.endLine) :
    keepSection s lines = !sectionDropCond s lines := by
  have h := sectionScan_eq_true_iff lines s.endLine (s.endLine + 1 - s.startLine)
    s.startLine rfl hse
  have hcond : sectionDropCond s lines = false ↔
      ((∀ k, s.startLine ≤ k → k ≤ s.endLine →
          anyInlineIgnore (lines.getD (k - 1) "") = false) ∧
       (2 ≤ s.startLine →
          startsWithInlineIgnore (lines.getD (s.startLine - 2) "") = false)) := by
    unfold sectionDropCond
    simp only [Bool.or_eq_false_iff, Bool.and_eq_false_iff,
      List.any_eq_false, List.mem_range', decide_eq_false_iff_not, not_le,
      Bool.not_eq_true]
    constructor
    · rintro ⟨ha, hb⟩
      refine ⟨fun k hk1 hk2 => ha k ⟨k - s.startLine, by omega, by omega⟩, fun h2 => ?_⟩
      rcases hb with hb | hb
      · omega
      · exact hb
    · rintro ⟨ha, hb⟩
      refine ⟨fun k hk => ?_, ?_⟩
      · obtain ⟨j, hj1, hj2⟩ := hk
        exact ha k (by omega) (by omega)
      · by_cases h2 : 2 ≤ s.startLine
        · exact Or.inr (hb h2)
        · exact Or.inl (by omega)
  cases hd : sectionDropCond s lines with
  | false =>
    unfold keepSection
    rw [h.mpr (hcond.mp hd)]
    rfl
  | true =>
    unfold keepSection
    cases hk : sectionScan lines s.endLine (s.endLine + 1 - s.startLine) s.startLine with
    | false => rfl
    | true => exact absurd (hcond.mpr (h.mp hk)) (by simp [hd])

/-- Claim C3: for every region with `1 ≤ startLine ≤ endLine ≤ |lines|`, the
inline-suppression filter drops the region iff some line within
`[startLine, endLine]` matches the inline marker pattern, or the line
immediately preceding `startLine` starts (after leading whitespace) with the
marker pattern; otherwise the region is kept. -/
theorem removeSections_drop_iff (sections : List Section) (lines : List String)
    (hwf : ∀ s ∈ sections,
      1 ≤ s.startLine ∧ s.startLine ≤ s.endLine ∧ s.endLine ≤ lines.length) :
    removeSectionsMarkedWithInlineComment sections lines =
      sections.filter (fun s => !sectionDropCond s lines) := by
  unfold removeSectionsMarkedWithInlineComment
  apply List.filter_congr
  intro s hs
  exact keepSection_iff s lines (hwf s hs).2.1

theorem removeSections_drop_iff_witness :
    removeSectionsMarkedWithInlineComment
        [{ path := "a.go", startLine := 1, startCol := 1, endLine := 1,
           endCol := 5, sortValue := 0 }]
        ["x = 0 // untested section"] =
      List.filter (fun s => !sectionDropCond s ["x = 0 // untested section"])
        [{ path := "a.go", startLine := 1, startCol := 1, endLine := 1,
           endCol := 5, sortValue := 0 }] :=
  removeSections_drop_iff _ _ (by decide)

theorem getD_set_cases (l : List String) (i k : Nat) (a d : String) :
    (l.set i a).getD k d = l.getD k d ∨ (i = k ∧ (l.set i a).getD k d = a) := by
  by_cases hik : i = k
  · subst hik
    by_cases hlen : i < l.length
    · right
      refine ⟨rfl, ?_⟩
      simp [List.getD_eq_getElem?_getD, List.getElem?_set_self hlen]
    · left
      rw [List.set_eq_of_length_le (by omega)]
  · left
    simp [List.getD_eq_getElem?_getD, List.getElem?_set_ne hik]

theorem sectionScan_set_mono (lines : List String) (i : Nat) (newLine : String)
    (hmark : anyInlineIgnore newLine = true)
    (hpres : startsWithInlineIgnore (lines.getD i "") = true →
      startsWithInlineIgnore newLine = true)
    (endL : Nat) :
    ∀ fuel n, sectionScan (lines.set i newLine) endL fuel n = true →
      sectionScan lines endL fuel n = true := by
  intro fuel
  induction fuel with
  | zero => intro n h; exact h
  | succ fuel ih =>
    intro n h
    unfold sectionScan at h ⊢
    by_cases hany' : anyInlineIgnore ((lines.set i newLine).getD (n - 1) "") = true
    · rw [if_pos hany'] at h
      exact absurd h (by decide)
    · rw [if_neg hany'] at h
      have hany : ¬ anyInlineIgnore (lines.getD (n - 1) "") = true := by
        rcases getD_set_cases lines i (n - 1) newLine "" with hc | ⟨_, hc⟩
        · rw [← hc]; exact hany'
        · rw [hc] at hany'; exact absurd hmark hany'
      rw [if_neg hany]
      by_cases h2 : 2 ≤ n
      · rw [if_pos h2] at h ⊢
        by_cases hst' : startsWithInlineIgnore ((lines.set i newLine).getD (n - 2) "") = true
        · rw [if_pos hst'] at h
          exact absurd h (by decide)
        · rw [if_neg hst'] at h
          have hst : ¬ startsWithInlineIgnore (lines.getD (n - 2) "") = true := by
            rcases getD_set_cases lines i (n - 2) newLine "" with hc | ⟨hik, hc⟩
            · rw [← hc]; exact hst'
            · rw [hc] at hst'
              rw [← hik]
              intro hcontra
              exact absurd (hpres hcontra) hst'
          rw [if_neg hst]
          by_cases hend : n = endL
          · rw [if_pos hend]
          · rw [if_neg hend] at h ⊢; exact ih (n + 1) h
      · rw [if_neg h2] at h ⊢
        by_cases hend : n = endL
        · rw [if_pos hend]
        · rw [if_neg hend] at h ⊢; exact ih (n + 1) h

/-- Claim C9: suppression is monotonic.  Replacing line `i` by a version
carrying a suppression marker (it matches the inline marker pattern, and it
preserves a standalone-marker match of the line it replaces) can only remove
regions from the filter's output, never add any; and the output is always a
sublist of the input sections. -/
theorem removeSections_monotone (sections : List Section) (lines : List String)
    (i : Nat) (newLine : String)
    (hmark : anyInlineIgnore newLine = true)
    (hpres : startsWithInlineIgnore (lines.getD i "") = true →
      startsWithInlineIgnore newLine = true) :
    (removeSectionsMarkedWithInlineComment sections (lines.set i newLine)).Sublist
        (removeSectionsMarkedWithInlineComment sections lines) ∧
      (removeSectionsMarkedWithInlineComment sections lines).Sublist sections := by
  constructor
  · unfold removeSectionsMarkedWithInlineComment
    exact List.monotone_filter_right sections
      (fun s hs => sectionScan_set_mono lines i newLine hmark hpres s.endLine
        (s.endLine + 1 - s.startLine) s.startLine hs)
  · exact List.filter_sublist sections

theorem removeSections_monotone_witness :
    (removeSectionsMarkedWithInlineComment
        [{ path := "a.go", startLine := 1, startCol := 0, endLine := 1,
           endCol := 0, sortValue := 0 }]
        (["x1"].set 0 "x1 // untested section")).Sublist
        (removeSectionsMarkedWithInlineComment
          [{ path := "a.go", startLine := 1, startCol := 0, endLine := 1,
             endCol := 0, sortValue := 0 }] ["x1"]) ∧
      (removeSectionsMarkedWithInlineComment
        [{ path := "a.go", startLine := 1, startCol := 0, endLine := 1,
           endCol := 0, sortValue := 0 }] ["x1"]).Sublist
        [{ path := "a.go", startLine := 1, startCol := 0, endLine := 1,
           endCol := 0, sortValue := 0 }] :=
  removeSections_monotone _ _ 0 _ (by decide) (fun hc => absurd hc (by decide))

/-- Variant of the scan in which every line access is bounds-checked: an
index outside `lines` aborts the whole computation with `none`.  It mirrors
the reads and guards of the Go loop exactly: `lines[lineNumber-1]` is read
on every iteration, and `lines[lineNumber-2]` is read only under the
short-circuited guard `lineNumber >= 2`. -/
def sectionScanChecked (lines : List String) (endL : Nat) : Nat → Nat → Option Bool
  | 0, _ => some false
  | fuel + 1, n =>
    if n - 1 < lines.length then
      if anyInlineIgnore (lines.getD (n - 1) "") then some false
      else if 2 ≤ n then
        if n - 2 < lines.length then
          if startsWithInlineIgnore (lines.getD (n - 2) "") then some false
          else if n = endL then some true
          else sectionScanChecked lines endL fuel (n + 1)
        else none
      else if n = endL then some true
      else sectionScanChecked lines endL fuel (n + 1)
    else none

/-- The whole filter with bounds-checked accesses. -/
def removeSectionsChecked (sections : List Section) (lines : List String) :
    Option (List Section) :=
  match sections with
  | [] => some []
  | s :: rest =>
    match sectionScanChecked lines s.endLine (s.endLine + 1 - s.startLine)
        s.startLine with
    | none => none
    | some b =>
      match removeSectionsChecked rest lines with
      | none => none
      | some tail => some (if b then s :: tail else tail)

theorem sectionScanChecked_eq (lines : List String) (endL : Nat)
    (hlen : endL ≤ lines.length) :
    ∀ fuel n, 1 ≤ n → n ≤ endL →
      sectionScanChecked lines endL fuel n =
        some (sectionScan lines endL fuel n) := by
  intro fuel
  induction fuel with
  | zero => intro n _ _; rfl
  | succ fuel ih =>
    intro n h1 h2
    unfold sectionScanChecked sectionScan
    rw [if_pos (show n - 1 < lines.length by omega)]
    by_cases hany : anyInlineIgnore (lines.getD (n - 1) "") = true
    · rw [if_pos hany, if_pos hany]
    · rw [if_neg hany, if_neg hany]
      by_cases hn2 : 2 ≤ n
      · rw [if_pos hn2, if_pos hn2, if_pos (show n - 2 < lines.length by omega)]
        by_cases hst : startsWithInlineIgnore (lines.getD (n - 2) "") = true
        · rw [if_pos hst, if_pos hst]
        · rw [if_neg hst, if_neg hst]
          by_cases hend : n = endL
          · rw [if_pos hend, if_pos hend]
          · rw [if_neg hend, if_neg hend]
            exact ih (n + 1) (by omega) (by omega)
      · rw [if_neg hn2, if_neg hn2]
        by_cases hend : n = endL
        · rw [if_pos hend, if_pos hend]
        · rw [if_neg hend, if_neg hend]
          exact ih (n + 1) (by omega) (by omega)

/-- Claim C10: when every section satisfies
`1 ≤ startLine ≤ endLine ≤ |lines|`, every line access of the filter is in
bounds — the bounds-checked variant of the filter never aborts and computes
exactly the unchecked filter's result.  In particular the guarded look-back
at `lineNumber - 2` (only under `lineNumber ≥ 2`) never reads a nonexistent
preceding line, even for a region starting at line 1. -/
theorem removeSectionsChecked_safe (sections : List Section) (lines : List String)
    (hwf : ∀ s ∈ sections,
      1 ≤ s.startLine ∧ s.startLine ≤ s.endLine ∧ s.endLine ≤ lines.length) :
    removeSectionsChecked sections lines =
      some (removeSectionsMarkedWithInlineComment sections lines) := by
  revert hwf
  induction sections with
  | nil => intro _; rfl
  | cons s rest ih =>
    intro hwf
    obtain ⟨h1, h2, h3⟩ := hwf s (List.mem_cons_self s rest)
    have hscan := sectionScanChecked_eq lines s.endLine h3
      (s.endLine + 1 - s.startLine) s.startLine h1 h2
    unfold removeSectionsChecked
    rw [hscan, ih (fun t ht => hwf t (List.mem_cons_of_mem s ht))]
    unfold removeSectionsMarkedWithInlineComment keepSection
    rw [List.filter_cons]

theorem removeSectionsChecked_safe_witness :
    removeSectionsChecked
        [{ path := "b.go", startLine := 1, startCol := 0, endLine := 1,
           endCol := 0, sortValue := 0 }] ["y"] =
      some (removeSectionsMarkedWithInlineComment
        [{ path := "b.go", startLine := 1, startCol := 0, endLine := 1,
           endCol := 0, sortValue := 0 }] ["y"]) :=
  removeSectionsChecked_safe _ _ (by decide)

def perFileLit : List Char := "untested sections:".data

/-- Matches the compiled pattern `perFileIgnore = // *untested sections:
*([0-9]+)` of `src/main.go:15` at the start of the list and returns the
captured (greedy, hence maximal) digit run.  The greedy ` *` runs must
consume every space, because the character required next (`u` of the
literal, resp. a digit) is never a space. -/
def perFileMatchAt (cs : List Char) : Option (List Char) :=
  if ['/', '/'].isPrefixOf cs then
    if perFileLit.isPrefixOf ((cs.drop 2).dropWhile (fun c => decide (c = ' '))) then
      if ((((cs.drop 2).dropWhile (fun c => decide (c = ' '))).drop
            perFileLit.length).dropWhile (fun c => decide (c = ' '))).takeWhile
              Char.isDigit = [] then none
      else some (((((cs.drop 2).dropWhile (fun c => decide (c = ' '))).drop
            perFileLit.length).dropWhile (fun c => decide (c = ' '))).takeWhile
              Char.isDigit)
    else none
  else none

/-- Leftmost search for the pattern (`FindStringSubmatch` /
`FindStringIndex` semantics): index of the first match and its capture. -/
def perFileSearch : List Char → Option (Nat × List Char)
  | [] => none
  | c :: cs =>
    match perFileMatchAt (c :: cs) with
    | some ds => some (0, ds)
    | none =>
      match perFileSearch cs with
      | none => none
      | some r => some (r.1 + 1, r.2)

/-- `configuredUntestedForFile` of `src/main.go:214-224` (the file read is
abstracted to the file's content): the value and 1-based line number
(newlines before the match index, plus one) of the first
`// untested sections: N` match; `(0, 0)` when there is no match. -/
def configuredUntestedForFile (content : String) : Nat × Nat :=
  match perFileSearch content.data with
  | none => (0, 0)
  | some r => (digitsToNat r.2, (content.data.take r.1).count '\n' + 1)

/-- The Budget Reader as the claim words it, i.e. CASE-tolerantly: the same
search run on the lowercased text (lowercasing changes neither indices nor
newlines, so line numbers are unaffected). -/
def configuredUntestedCaseTolerant (content : String) : Nat × Nat :=
  match perFileSearch (content.data.map Char.toLower) with
  | none => (0, 0)
  | some r => (digitsToNat r.2, (content.data.take r.1).count '\n' + 1)

/-- The budget pattern occurring at position `i` of the text with (maximal)
digit capture `ds`: `//`, then spaces, then the literal
`untested sections:`, then spaces, then the non-empty digit run `ds` not
followed by a further digit. -/
def IsPerFileMatchAt (cs : List Char) (i : Nat) (ds : List Char) : Prop :=
  ∃ s1 s2 rest,
    cs.drop i = '/' :: '/' :: (s1 ++ (perFileLit ++ (s2 ++ (ds ++ rest)))) ∧
    (∀ c ∈ s1, c = ' ') ∧ (∀ c ∈ s2, c = ' ') ∧
    ds ≠ [] ∧ (∀ c ∈ ds, c.isDigit = true) ∧
    (∀ c ∈ rest.take 1, c.isDigit = false)

theorem takeWhile_mem_pred (p : α → Bool) (l : List α) :
    ∀ c ∈ l.takeWhile p, p c = true := by
  induction l with
  | nil => intro c hc; simp at hc
  | cons a l ih =>
    intro c hc
    rw [List.takeWhile_cons] at hc
    by_cases ha : p a = true
    · rw [if_pos ha] at hc
      rcases List.mem_cons.mp hc with h | h
      · rw [h]; exact ha
      · exact ih c h
    · rw [if_neg ha] at hc; simp at hc

theorem dropWhile_head_pred (p : α → Bool) (l : List α) :
    ∀ c ∈ (l.dropWhile p).take 1, p c = false := by
  induction l with
  | nil => intro c hc; simp at hc
  | cons a l ih =>
    intro c hc
    rw [List.dropWhile_cons] at hc
    by_cases ha : p a = true
    · rw [if_pos ha] at hc; exact ih c hc
    · rw [if_neg ha] at hc
      have ht1 : (a :: l).take 1 = [a] := rfl
      rw [ht1, List.mem_singleton] at hc
      rw [hc]
      exact Bool.eq_false_iff.mpr ha

theorem dropWhile_all_append (p : α → Bool) (a b : List α)
    (ha : ∀ c ∈ a, p c = true) (hb : ∀ x ∈ b.take 1, p x = false) :
    (a ++ b).dropWhile p = b := by
  induction a with
  | nil =>
    rw [List.nil_append]
    cases b with
    | nil => rfl
    | cons x xs =>
      rw [List.dropWhile_cons, if_neg]
      simp [hb x (by simp)]
  | cons c a ih =>
    rw [List.cons_append, List.dropWhile_cons, if_pos (ha c (by simp))]
    exact ih (fun c hc => ha c (by simp [hc]))

theorem takeWhile_all_append (p : α → Bool) (a b : List α)
    (ha : ∀ c ∈ a, p c = true) (hb : ∀ x ∈ b.take 1, p x = false) :
    (a ++ b).takeWhile p = a := by
  induction a with
  | nil =>
    rw [List.nil_append]
    cases b with
    | nil => rfl
    | cons x xs =>
      rw [List.takeWhile_cons, if_neg]
      simp [hb x (by simp)]
  | cons c a ih =>
    rw [List.cons_append, List.takeWhile_cons, if_pos (ha c (by simp))]
    rw [ih (fun c hc => ha c (by simp [hc]))]

theorem perFileMatchAt_some_iff (cs : List Char) (ds : List Char) :
    perFileMatchAt cs = some ds ↔
      ∃ s1 s2 rest,
        cs = '/' :: '/' :: (s1 ++ (perFileLit ++ (s2 ++ (ds ++ rest)))) ∧
        (∀ c ∈ s1, c = ' ') ∧ (∀ c ∈ s2, c = ' ') ∧
        ds ≠ [] ∧ (∀ c ∈ ds, c.isDigit = true) ∧
        (∀ c ∈ rest.take 1, c.isDigit = false) := by
  constructor
  · intro h
    unfold perFileMatchAt at h
    by_cases hsl : ['/', '/'].isPrefixOf cs = true
    · rw [if_pos hsl] at h
      obtain ⟨r0, hr0⟩ := List.isPrefixOf_iff_prefix.mp hsl
      by_cases hpre : perFileLit.isPrefixOf
          ((cs.drop 2).dropWhile (fun c => decide (c = ' '))) = true
      · rw [if_pos hpre] at h
        obtain ⟨t, ht⟩ := List.isPrefixOf_iff_prefix.mp hpre
        by_cases hemp : ((((cs.drop 2).dropWhile (fun c => decide (c = ' '))).drop
            perFileLit.length).dropWhile (fun c => decide (c = ' '))).takeWhile
              Char.isDigit = []
        · rw [if_pos hemp] at h
          exact Option.noConfusion h
        · rw [if_neg hemp] at h
          injection h with hds
          refine ⟨(cs.drop 2).takeWhile (fun c => decide (c = ' ')),
            (((cs.drop 2).dropWhile (fun c => decide (c = ' '))).drop
              perFileLit.length).takeWhile (fun c => decide (c = ' ')),
            ((((cs.drop 2).dropWhile (fun c => decide (c = ' '))).drop
              perFileLit.length).dropWhile (fun c => decide (c = ' '))).dropWhile
                Char.isDigit, ?_, ?_, ?_, ?_, ?_, ?_⟩
          · rw [← hds]
            have e0 : cs = '/' :: '/' :: (cs.drop 2) := by rw [← hr0]; rfl
            conv_lhs => rw [e0]
            congr 1
            congr 1
            conv_lhs => rw [← List.takeWhile_append_dropWhile
              (fun c => decide (c = ' ')) (cs.drop 2)]
            congr 1
            rw [← ht, List.drop_left]
            congr 1
            conv_lhs => rw [← List.takeWhile_append_dropWhile
              (fun c => decide (c = ' ')) t]
            congr 1
            exact (List.takeWhile_append_dropWhile _ _).symm
          · intro c hc
            simpa using takeWhile_mem_pred _ _ c hc
          · intro c hc
            simpa using takeWhile_mem_pred _ _ c hc
          · rw [← hds]; exact hemp
          · intro c hc
            rw [← hds] at hc
            exact takeWhile_mem_pred _ _ c hc
          · intro c hc
            exact dropWhile_head_pred _ _ c hc
      · rw [if_neg hpre] at h
        exact Option.noConfusion h
    · rw [if_neg hsl] at h
      exact Option.noConfusion h
  · rintro ⟨s1, s2, rest, hcs, hs1, hs2, hne, hdig, hrest⟩
    subst hcs
    unfold perFileMatchAt
    rw [if_pos (show ['/', '/'].isPrefixOf
        ('/' :: '/' :: (s1 ++ (perFileLit ++ (s2 ++ (ds ++ rest))))) = true from
      List.isPrefixOf_iff_prefix.mpr ⟨s1 ++ (perFileLit ++ (s2 ++ (ds ++ rest))), rfl⟩)]
    have hdrop2 : ('/' :: '/' :: (s1 ++ (perFileLit ++ (s2 ++ (ds ++ rest))))).drop 2 =
        s1 ++ (perFileLit ++ (s2 ++ (ds ++ rest))) := rfl
    rw [hdrop2]
    have hd1 : (s1 ++ (perFileLit ++ (s2 ++ (ds ++ rest)))).dropWhile
        (fun c => decide (c = ' ')) = perFileLit ++ (s2 ++ (ds ++ rest)) := by
      apply dropWhile_all_append
      · intro c hc; simp [hs1 c hc]
      · intro x hx
        have : x = 'u' := by
          have : (perFileLit ++ (s2 ++ (ds ++ rest))).take 1 = ['u'] := rfl
          rw [this] at hx
          simpa using hx
        rw [this]; rfl
    rw [hd1]
    have hpre : perFileLit.isPrefixOf (perFileLit ++ (s2 ++ (ds ++ rest))) = true :=
      List.isPrefixOf_iff_prefix.mpr ⟨s2 ++ (ds ++ rest), rfl⟩
    rw [if_pos hpre, List.drop_left]
    have hdshead : ∀ x ∈ (ds ++ rest).take 1, decide (x = ' ') = false := by
      intro x hx
      cases ds with
      | nil => exact absurd rfl hne
      | cons d ds' =>
        have hxd : x = d := by simpa using hx
        have : d.isDigit = true := hdig d (by simp)
        rw [hxd]
        simp only [decide_eq_false_iff_not]
        intro hsp
        rw [hsp] at this
        exact absurd this (by decide)
    have hd2 : (s2 ++ (ds ++ rest)).dropWhile (fun c => decide (c = ' ')) =
        ds ++ rest := by
      apply dropWhile_all_append
      · intro c hc; simp [hs2 c hc]
      · exact hdshead
    rw [hd2]
    have htw : (ds ++ rest).takeWhile Char.isDigit = ds :=
      takeWhile_all_append _ _ _ hdig hrest
    rw [htw, if_neg (by simp [hne])]

theorem perFileSearch_eq_none_iff (cs : List Char) :
    perFileSearch cs = none ↔ ∀ i, perFileMatchAt (cs.drop i) = none := by
  induction cs with
  | nil =>
    simp only [perFileSearch, true_iff]
    intro i
    rw [List.drop_nil]
    rfl
  | cons c cs ih =>
    unfold perFileSearch
    cases hm : perFileMatchAt (c :: cs) with
    | some ds =>
      simp only
      constructor
      · intro h; cases h
      · intro h
        have := h 0
        rw [List.drop_zero] at this
        rw [this] at hm
        cases hm
    | none =>
      simp only
      cases hs : perFileSearch cs with
      | some r =>
        simp only
        constructor
        · intro h; cases h
        · intro h
          have : perFileSearch cs = none := by
            rw [ih]
            intro i
            have := h (i + 1)
            simpa using this
          rw [this] at hs; cases hs
      | none =>
        simp only [true_iff]
        intro i
        cases i with
        | zero => rw [List.drop_zero]; exact hm
        | succ i =>
          have := (ih.mp hs) i
          simpa using this

theorem perFileSearch_eq_some (cs : List Char) :
    ∀ i ds, perFileMatchAt (cs.drop i) = some ds →
      (∀ j, j < i → perFileMatchAt (cs.drop j) = none) →
      perFileSearch cs = some (i, ds) := by
  induction cs with
  | nil =>
    intro i ds hmatch _
    rw [List.drop_nil] at hmatch
    cases hmatch
  | cons c cs ih =>
    intro i ds hmatch hmin
    cases i with
    | zero =>
      rw [List.drop_zero] at hmatch
      unfold perFileSearch
      rw [hmatch]
    | succ i =>
      have h0 : perFileMatchAt (c :: cs) = none := by
        have := hmin 0 (by omega)
        simpa using this
      unfold perFileSearch
      rw [h0]
      have hrec : perFileSearch cs = some (i, ds) := by
        apply ih i ds (by simpa using hmatch)
        intro j hj
        have := hmin (j + 1) (by omega)
        simpa using this
      rw [hrec]

/-- Claim C4 (amended): `configuredUntestedForFile` matches
`// untested sections: <integer>` CASE-SENSITIVELY, tolerating any number of
spaces (including none) after `//` and after the colon; it returns the
integer of the first (leftmost) match together with the 1-based line number
of the match (newlines before the match index, plus one), and `(0, 0)` when
no match exists. -/
theorem configuredUntestedForFile_spec (content : String) :
    ((∀ i ds, ¬ IsPerFileMatchAt content.data i ds) →
        configuredUntestedForFile content = (0, 0)) ∧
    (∀ i ds, IsPerFileMatchAt content.data i ds →
      (∀ j, j < i → ∀ ds2, ¬ IsPerFileMatchAt content.data j ds2) →
      configuredUntestedForFile content =
        (digitsToNat ds, (content.data.take i).count '\n' + 1)) := by
  constructor
  · intro hno
    unfold configuredUntestedForFile
    have hnone : perFileSearch content.data = none := by
      rw [perFileSearch_eq_none_iff]
      intro i
      cases hm : perFileMatchAt (content.data.drop i) with
      | none => rfl
      | some ds =>
        exact absurd ((perFileMatchAt_some_iff _ ds).mp hm) (hno i ds)
    rw [hnone]
  · intro i ds hIs hmin
    unfold configuredUntestedForFile
    have hm : perFileMatchAt (content.data.drop i) = some ds :=
      (perFileMatchAt_some_iff _ ds).mpr hIs
    have hsome : perFileSearch content.data = some (i, ds) := by
      apply perFileSearch_eq_some content.data i ds hm
      intro j hj
      cases hmj : perFileMatchAt (content.data.drop j) with
      | none => rfl
      | some ds2 =>
        exact absurd ((perFileMatchAt_some_iff _ ds2).mp hmj) (hmin j hj ds2)
    rw [hsome]

theorem configuredUntestedForFile_spec_witness :
    configuredUntestedForFile "// untested sections: 2" = (2, 1) := by
  have h := (configuredUntestedForFile_spec "// untested sections: 2").2 0 ['2']
    ⟨[' '], [' '], [], by decide, by decide, by decide, by decide, by decide,
      by decide⟩
    (fun j hj => absurd hj (by omega))
  exact h.trans (by decide)

/-- Claim C4, counterexample: the Budget Reader is NOT case-tolerant.  On
the content `"// Untested sections: 3"` the code finds no match and returns
`(0, 0)`, while the case-tolerant matcher demanded by the claim finds the
budget `3` declared on line 1. -/
theorem configuredUntestedForFile_case_ce :
    configuredUntestedForFile "// Untested sections: 3" = (0, 0) ∧
      configuredUntestedCaseTolerant "// Untested sections: 3" = (3, 1) := by
  constructor
  · decide
  · decide

/-- Split at the first occurrence of `pat`: `some (before, after)`, or
`none` when `pat` does not occur. -/
def findSplit (pat : List Char) : List Char → Option (List Char × List Char)
  | [] => none
  | c :: cs =>
    if pat.isPrefixOf (c :: cs) then some ([], (c :: cs).drop pat.length)
    else
      match findSplit pat cs with
      | none => none
      | some pr => some (c :: pr.1, pr.2)

/-- Go `strings.SplitN(s, sep, n)` for a one-character separator: at most
`n` pieces, the last piece holding the remainder. -/
def splitChN (sep : Char) : Nat → List Char → List (List Char)
  | 0, cs => [cs]
  | 1, cs => [cs]
  | n + 2, cs =>
    match findSplit [sep] cs with
    | none => [cs]
    | some pr => pr.1 :: splitChN sep (n + 1) pr.2

/-- Go `strings.SplitN(s, pat, 2)` for a string separator. -/
def splitFirstOn (pat : String) (s : String) : List String :=
  match findSplit pat.data s.data with
  | none => [s]
  | some pr => [mkStr pr.1, mkStr pr.2]

/-- Modelled from the spec: the repository's `joinPath` helper (defined
outside `src/`) builds the build-root candidate `buildRoot/src/<path>`. -/
def joinPath (a b c : String) : String := a ++ "/" ++ b ++ "/" ++ c

/-- The shifting loop of `findFile` (`src/main.go:161-168`). -/
def findFileLoop (fs : Fs) : List String → List String
  | [] => []
  | p :: ps =>
    if fexists fs (joinSep "/" (p :: ps)) then p :: ps
    else findFileLoop fs ps

/-- `findFile` of `src/main.go:159-170`: drop leading path components until
the remaining path exists on disk (or no components remain). -/
def findFile (fs : Fs) (path : String) : String :=
  joinSep "/" (findFileLoop fs ((splitCh '/' path.data).map mkStr))

/-- `normalizeCoveredPath` of `src/main.go:173-210`, with the file system
and the `GOPATH` environment variable passed explicitly (`gopath = none`
models an unset variable; `os.PathSeparator` is `/`). -/
def normalizeCoveredPath (fs : Fs) (gopath : Option String) (path : String)
    (workingDirectory : String) : String × String :=
  let parts := splitChN '/' 4 path.data
  let goPrefixedPath := joinPath (gopath.getD "") "src" path
  let inGoPath := gopath.isSome && fexists fs goPrefixedPath
  if parts.length ≤ 3 then
    if inGoPath then (path, goPrefixedPath) else (path, path)
  else
    let pref := joinSep "/" ((parts.take 3).map mkStr)
    let demodularized := findFile fs ((splitFirstOn (pref ++ "/") path).getD 1 "")
    if inGoPath = false then (demodularized, demodularized)
    else if hasSuffixStr workingDirectory pref then (demodularized, goPrefixedPath)
    else (path, goPrefixedPath)

/-- The 3-segment module prefix the resolver strips from a long path. -/
def modPrefOf (path : String) : String :=
  joinSep "/" (((splitChN '/' 4 path.data).take 3).map mkStr)

/-- The demodularized path of the spec: the module prefix (with its trailing
separator) stripped, then leading components dropped until an existing file
is found. -/
def demodularizedOf (fs : Fs) (path : String) : String :=
  findFile fs (mkStr (path.data.drop ((modPrefOf path).data.length + 1)))

/-- Claim C6: for a profile path with at most 3 separator-delimited
segments: with no existing build-root candidate (`GOPATH` unset, or
`$GOPATH/src/<path>` not on disk) the path is returned unmodified as both
display and read path; with an existing candidate, the original path is the
display path and the candidate the read path. -/
theorem normalizeCoveredPath_short (fs : Fs) (gopath : Option String)
    (path wd : String) (hseg : (splitChN '/' 4 path.data).length ≤ 3) :
    ((∀ g, gopath = some g → fs (joinPath g "src" path) = none) →
        normalizeCoveredPath fs gopath path wd = (path, path)) ∧
    (∀ g, gopath = some g → fexists fs (joinPath g "src" path) = true →
        normalizeCoveredPath fs gopath path wd = (path, joinPath g "src" path)) := by
  constructor
  · intro hno
    unfold normalizeCoveredPath
    rw [if_pos hseg]
    have hgo : (gopath.isSome &&
        fexists fs (joinPath (gopath.getD "") "src" path)) = false := by
      cases gopath with
      | none => rfl
      | some g =>
        show (true && fexists fs (joinPath g "src" path)) = false
        rw [Bool.true_and]
        unfold fexists
        rw [hno g rfl]
        rfl
    rw [hgo]
    rfl
  · intro g hg hex
    subst hg
    unfold normalizeCoveredPath
    rw [if_pos hseg]
    have hgo : ((some g).isSome &&
        fexists fs (joinPath ((some g).getD "") "src" path)) = true := by
      show (true && fexists fs (joinPath g "src" path)) = true
      rw [Bool.true_and]
      exact hex
    rw [hgo]
    rfl

theorem normalizeCoveredPath_short_witness :
    normalizeCoveredPath (fun _ => none) none "pkg/a.go" "/wd" =
      ("pkg/a.go", "pkg/a.go") :=
  (normalizeCoveredPath_short (fun _ => none) none "pkg/a.go" "/wd"
      (by decide)).1
    (fun g hg => Option.noConfusion hg)

theorem findSplit_eq_append (pat : List Char) :
    ∀ cs pr, findSplit pat cs = some pr → cs = pr.1 ++ pat ++ pr.2 := by
  intro cs
  induction cs with
  | nil => intro pr h; exact Option.noConfusion h
  | cons c cs ih =>
    intro pr h
    unfold findSplit at h
    by_cases hpre : pat.isPrefixOf (c :: cs) = true
    · rw [if_pos hpre] at h
      injection h with h
      obtain ⟨t, ht⟩ := List.isPrefixOf_iff_prefix.mp hpre
      have hdrop : (c :: cs).drop pat.length = t := by
        rw [← ht, List.drop_left]
      rw [← h]
      show c :: cs = [] ++ pat ++ ((c :: cs).drop pat.length)
      rw [hdrop, List.nil_append, ht]
    · rw [if_neg hpre] at h
      cases hf : findSplit pat cs with
      | none => rw [hf] at h; exact Option.noConfusion h
      | some pr' =>
        rw [hf] at h
        injection h with h
        rw [← h]
        have := ih pr' hf
        show c :: cs = (c :: pr'.1) ++ pat ++ pr'.2
        rw [List.cons_append, List.cons_append, ← this]

theorem findSplit_front (pat rest : List Char) (hne : pat ≠ []) :
    findSplit pat (pat ++ rest) = some ([], rest) := by
  cases pat with
  | nil => exact absurd rfl hne
  | cons q pat' =>
    have hshape : (q :: pat') ++ rest = q :: (pat' ++ rest) := rfl
    rw [hshape]
    unfold findSplit
    rw [if_pos (List.isPrefixOf_iff_prefix.mpr ⟨rest, by simp⟩)]
    have hdrop : (q :: (pat' ++ rest)).drop (q :: pat').length = rest := by
      rw [← hshape, List.drop_left]
    rw [hdrop]

/-- Reassembly of a character-split: interleave the separator back. -/
def joinCh (sep : Char) : List (List Char) → List Char
  | [] => []
  | [x] => x
  | x :: y :: xs => x ++ sep :: joinCh sep (y :: xs)

theorem splitChN_ne_nil (sep : Char) : ∀ n cs, splitChN sep n cs ≠ [] := by
  intro n cs
  match n with
  | 0 => simp [splitChN]
  | 1 => simp [splitChN]
  | m + 2 =>
    unfold splitChN
    cases findSplit [sep] cs with
    | none => simp
    | some pr => simp

theorem joinCh_splitChN (sep : Char) : ∀ n cs, joinCh sep (splitChN sep n cs) = cs := by
  intro n
  induction n with
  | zero => intro cs; rfl
  | succ n ih =>
    intro cs
    cases n with
    | zero => rfl
    | succ m =>
      show joinCh sep (splitChN sep (m + 2) cs) = cs
      unfold splitChN
      cases hf : findSplit [sep] cs with
      | none => rfl
      | some pr =>
        have hcs : cs = pr.1 ++ [sep] ++ pr.2 := findSplit_eq_append _ _ _ hf
        obtain ⟨y, ys, hys⟩ :=
          List.exists_cons_of_ne_nil (splitChN_ne_nil sep (m + 1) pr.2)
        simp only
        rw [hys]
        show pr.1 ++ sep :: joinCh sep (y :: ys) = cs
        rw [← hys, ih pr.2, hcs]
        simp [List.append_assoc]

theorem splitChN_length_le (sep : Char) : ∀ m cs, (splitChN sep (m + 1) cs).length ≤ m + 1 := by
  intro m
  induction m with
  | zero => intro cs; simp [splitChN]
  | succ m ih =>
    intro cs
    show (splitChN sep (m + 2) cs).length ≤ m + 2
    unfold splitChN
    cases findSplit [sep] cs with
    | none => simp
    | some pr =>
      simp only [List.length_cons]
      have := ih pr.2
      omega

theorem length_four_shape {α : Type} (l : List α) (h : l.length = 4) :
    ∃ a b c d, l = [a, b, c, d] := by
  cases l with
  | nil => simp at h
  | cons a l1 =>
    cases l1 with
    | nil => simp at h
    | cons b l2 =>
      cases l2 with
      | nil => simp at h
      | cons c l3 =>
        cases l3 with
        | nil => simp at h
        | cons d l4 =>
          cases l4 with
          | nil => exact ⟨a, b, c, d, rfl⟩
          | cons e l5 => simp at h

theorem path_decomp (path : String) (hseg : 3 < (splitChN '/' 4 path.data).length) :
    path.data = (modPrefOf path).data ++ '/' ::
      path.data.drop ((modPrefOf path).data.length + 1) := by
  have hle : (splitChN '/' 4 path.data).length ≤ 4 := by
    simpa using splitChN_length_le '/' 3 path.data
  have hlen : (splitChN '/' 4 path.data).length = 4 := by omega
  obtain ⟨p1, p2, p3, p4, hp⟩ := length_four_shape _ hlen
  have hjoin : path.data = joinCh '/' (splitChN '/' 4 path.data) :=
    (joinCh_splitChN '/' 4 path.data).symm
  rw [hp] at hjoin
  have hjoin' : path.data = p1 ++ '/' :: (p2 ++ '/' :: (p3 ++ '/' :: p4)) := hjoin
  have hmp : (modPrefOf path).data =
      (p1 ++ ['/']) ++ ((p2 ++ ['/']) ++ p3) := by
    unfold modPrefOf
    rw [hp]
    show (mkStr p1 ++ "/" ++ (mkStr p2 ++ "/" ++ mkStr p3)).data = _
    simp [mkStr, String.data_append]
  have hdrop : path.data.drop ((modPrefOf path).data.length + 1) = p4 := by
    rw [hjoin', hmp]
    have hlen2 : ((p1 ++ ['/']) ++ ((p2 ++ ['/']) ++ p3)).length + 1 =
        ((p1 ++ ['/']) ++ ((p2 ++ ['/']) ++ (p3 ++ ['/']))).length := by
      simp only [List.length_append, List.length_cons, List.length_nil]
      omega
    rw [hlen2]
    have hassoc : p1 ++ '/' :: (p2 ++ '/' :: (p3 ++ '/' :: p4)) =
        ((p1 ++ ['/']) ++ ((p2 ++ ['/']) ++ (p3 ++ ['/']))) ++ p4 := by
      simp [List.append_assoc]
    rw [hassoc, List.drop_left]
  rw [hdrop, hjoin', hmp]
  simp [List.append_assoc]

theorem demod_eq (fs : Fs) (path : String)
    (hseg : 3 < (splitChN '/' 4 path.data).length) :
    findFile fs ((splitFirstOn
        (joinSep "/" (((splitChN '/' 4 path.data).take 3).map mkStr) ++ "/")
        path).getD 1 "") = demodularizedOf fs path := by
  have hd := path_decomp path hseg
  have hpat : (modPrefOf path ++ "/").data = (modPrefOf path).data ++ ['/'] := by
    simp [String.data_append]
  have hps : path.data = ((modPrefOf path).data ++ ['/']) ++
      path.data.drop ((modPrefOf path).data.length + 1) := by
    conv_lhs => rw [hd]
    simp [List.append_assoc]
  have hsplit : splitFirstOn (modPrefOf path ++ "/") path =
      [mkStr [], mkStr (path.data.drop ((modPrefOf path).data.length + 1))] := by
    unfold splitFirstOn
    rw [hpat]
    rw [show findSplit ((modPrefOf path).data ++ ['/']) path.data =
        some ([], path.data.drop ((modPrefOf path).data.length + 1)) from by
      conv_lhs => rw [hps]
      exact findSplit_front _ _ (by simp)]
  show findFile fs ((splitFirstOn (modPrefOf path ++ "/") path).getD 1 "") = _
  rw [hsplit]
  rfl

/-- Claim C7: for a profile path with more than 3 segments: with no existing
build-root candidate, the demodularized path (3-segment module prefix
stripped, then leading components dropped until an existing file is found)
is returned as both display and read path; with an existing candidate and a
working directory ending in the module prefix, the result is
`(demodularized, candidate)`; with an existing candidate otherwise, it is
`(original path, candidate)`. -/
theorem normalizeCoveredPath_long (fs : Fs) (gopath : Option String)
    (path wd : String) (hseg : 3 < (splitChN '/' 4 path.data).length) :
    ((∀ g, gopath = some g → fs (joinPath g "src" path) = none) →
        normalizeCoveredPath fs gopath path wd =
          (demodularizedOf fs path, demodularizedOf fs path)) ∧
    (∀ g, gopath = some g → fexists fs (joinPath g "src" path) = true →
      hasSuffixStr wd (modPrefOf path) = true →
        normalizeCoveredPath fs gopath path wd =
          (demodularizedOf fs path, joinPath g "src" path)) ∧
    (∀ g, gopath = some g → fexists fs (joinPath g "src" path) = true →
      hasSuffixStr wd (modPrefOf path) = false →
        normalizeCoveredPath fs gopath path wd = (path, joinPath g "src" path)) := by
  refine ⟨?_, ?_, ?_⟩
  · intro hno
    unfold normalizeCoveredPath
    rw [if_neg (by omega)]
    have hgo : (gopath.isSome &&
        fexists fs (joinPath (gopath.getD "") "src" path)) = false := by
      cases gopath with
      | none => rfl
      | some g =>
        show (true && fexists fs (joinPath g "src" path)) = false
        rw [Bool.true_and]
        unfold fexists
        rw [hno g rfl]
        rfl
    rw [hgo]
    rw [if_pos rfl]
    rw [demod_eq fs path hseg]
  · intro g hg hex hsuf
    subst hg
    unfold normalizeCoveredPath
    rw [if_neg (by omega)]
    have hgo : ((some g).isSome &&
        fexists fs (joinPath ((some g).getD "") "src" path)) = true := by
      show (true && fexists fs (joinPath g "src" path)) = true
      rw [Bool.true_and]
      exact hex
    rw [hgo]
    rw [if_neg (by simp)]
    rw [show hasSuffixStr wd
        (joinSep "/" (((splitChN '/' 4 path.data).take 3).map mkStr)) = true from hsuf]
    rw [if_pos rfl]
    rw [demod_eq fs path hseg]
    rfl
  · intro g hg hex hsuf
    subst hg
    unfold normalizeCoveredPath
    rw [if_neg (by omega)]
    have hgo : ((some g).isSome &&
        fexists fs (joinPath ((some g).getD "") "src" path)) = true := by
      show (true && fexists fs (joinPath g "src" path)) = true
      rw [Bool.true_and]
      exact hex
    rw [hgo]
    rw [if_neg (by simp)]
    rw [show hasSuffixStr wd
        (joinSep "/" (((splitChN '/' 4 path.data).take 3).map mkStr)) = false from hsuf]
    rw [if_neg (by simp)]
    rfl

theorem normalizeCoveredPath_long_witness :
    normalizeCoveredPath
        (fun p => if p = "/go/src/github.com/u/r/f.go" then some "" else none)
        (some "/go") "github.com/u/r/f.go" "/home/x/github.com/u/r" =
      (demodularizedOf
        (fun p => if p = "/go/src/github.com/u/r/f.go" then some "" else none)
        "github.com/u/r/f.go", joinPath "/go" "src" "github.com/u/r/f.go") :=
  (normalizeCoveredPath_long
      (fun p => if p = "/go/src/github.com/u/r/f.go" then some "" else none)
      (some "/go") "github.com/u/r/f.go" "/home/x/github.com/u/r"
      (by decide)).2.1 "/go" rfl (by decide) (by decide)

/-- One insertion step of `groupSectionsByPath`: append the section to its
path's group, or start a new group at the end. -/
def addToGroup : List (String × List Section) → Section → List (String × List Section)
  | [], s => [(s.path, [s])]
  | (p, g) :: rest, s =>
    if p = s.path then (p, g ++ [s]) :: rest else (p, g) :: addToGroup rest s

/-- `groupSectionsByPath` of `src/main.go:122-133`: group sections by path,
preserving per-path order (keys in first-occurrence order; the iteration
order over the Go map is fixed separately by sorting the keys). -/
def groupSectionsByPath (sections : List Section) : List (String × List Section) :=
  sections.foldl addToGroup []

instance : IsTotal Section (fun a b => a.sortValue ≤ b.sortValue) :=
  ⟨fun a b => Nat.le_total a.sortValue b.sortValue⟩

instance : IsTrans Section (fun a b => a.sortValue ≤ b.sortValue) :=
  ⟨fun _ _ _ h1 h2 => Nat.le_trans h1 h2⟩

/-- The ascending-`sortValue` sort of `printUntestedSections`
(`sort.Slice` with `sections[i].sortValue < sections[j].sortValue`). -/
def sortSections (sections : List Section) : List Section :=
  List.insertionSort (fun a b => a.sortValue ≤ b.sortValue) sections

/-- The `(%v current vs %v configured)` detail string. -/
def detailsStr (actual configured : Nat) : String :=
  "(" ++ toString actual ++ " current vs " ++ toString configured ++ " configured)"

/-- The below-budget warning written to the diagnostic stream. -/
def warnStr (displayPath details readPath : String) (line : Nat) : String :=
  displayPath ++ " has less untested sections " ++ details ++
    ", decrement configured untested?\nconfigured on: " ++ readPath ++ ":" ++
    toString line

/-- `printUntestedSections` of `src/main.go:86-99`, modelled as the list of
lines written to the diagnostic stream: the header, then one
`displayPath:location` line per section in ascending `sortValue` order. -/
def printUntestedSections (sections : List Section) (displayPath : String)
    (details : String) : List String :=
  (displayPath ++ " new untested sections introduced " ++ details) ::
    (sortSections sections).map (fun s => displayPath ++ ":" ++ s.Location)

/-- The per-path body of `checkCoverage`'s iteration (`src/main.go:57-81`):
`none` models the fatal abort on an unreadable file; otherwise the pair of
the emitted diagnostic lines and whether the path exceeded its budget
(which sets the exit code to 1). -/
def processPath (fs : Fs) (wd : String) (gopath : Option String)
    (path : String) (sections : List Section) : Option (List String × Bool) :=
  if generatedFile path then some ([], false)
  else
    match fs (normalizeCoveredPath fs gopath path wd).2 with
    | none => none
    | some content =>
      if (removeSectionsMarkedWithInlineComment sections
            (splitChar '\n' content)).length =
          (configuredUntestedForFile content).1 then some ([], false)
      else if (configuredUntestedForFile content).1 <
          (removeSectionsMarkedWithInlineComment sections
            (splitChar '\n' content)).length then
        some (printUntestedSections
          (removeSectionsMarkedWithInlineComment sections (splitChar '\n' content))
          (normalizeCoveredPath fs gopath path wd).1
          (detailsStr
            (removeSectionsMarkedWithInlineComment sections
              (splitChar '\n' content)).length
            (configuredUntestedForFile content).1), true)
      else
        some ([warnStr (normalizeCoveredPath fs gopath path wd).1
          (detailsStr
            (removeSectionsMarkedWithInlineComment sections
              (splitChar '\n' content)).length
            (configuredUntestedForFile content).1)
          (normalizeCoveredPath fs gopath path wd).2
          (configuredUntestedForFile content).2], false)

/-- Strict lexicographic order on character lists (by code point). -/
def lexLt : List Char → List Char → Bool
  | [], [] => false
  | [], _ :: _ => true
  | _ :: _, [] => false
  | a :: as, b :: bs =>
    if a.toNat < b.toNat then true
    else if b.toNat < a.toNat then false
    else lexLt as bs

def insertPair (e : String × List Section) :
    List (String × List Section) → List (String × List Section)
  | [] => [e]
  | f :: rest =>
    if lexLt e.1.data f.1.data then e :: f :: rest else f :: insertPair e rest

/-- Modelled from the spec: the repository's `iterateBySortedKey` helper
(defined outside `src/`) visits the grouped paths in sorted key order; the
claims here depend only on the visit order being a fixed permutation of the
grouped entries. -/
def sortPairsByKey : List (String × List Section) → List (String × List Section)
  | [] => []
  | e :: rest => insertPair e (sortPairsByKey rest)

/-- The fold over the sorted path groups: concatenated diagnostics, and exit
code 1 as soon as any path exceeded its budget. -/
def runGroups (fs : Fs) (wd : String) (gopath : Option String) :
    List (String × List Section) → Option (List String × Nat)
  | [] => some ([], 0)
  | e :: rest =>
    match processPath fs wd gopath e.1 e.2 with
    | none => none
    | some r1 =>
      match runGroups fs wd gopath rest with
      | none => none
      | some r2 => some (r1.1 ++ r2.1, if r1.2 then 1 else r2.2)

/-- `checkCoverage` of `src/main.go:49-84` (file system, working directory
and `GOPATH` passed explicitly): parse the profile, group by path, iterate
in sorted key order; `none` models a fatal abort. -/
def checkCoverage (fs : Fs) (wd : String) (gopath : Option String)
    (coverageFilePath : String) : Option (List String × Nat) :=
  match fs coverageFilePath with
  | none => none
  | some content =>
    runGroups fs wd gopath
      (sortPairsByKey (groupSectionsByPath (untestedSections content)))

/-- The post-suppression region count and the configured budget of one
grouped path, `none` when its resolved read path is unreadable. -/
def pathActualConfigured (fs : Fs) (wd : String) (gopath : Option String)
    (path : String) (sections : List Section) : Option (Nat × Nat) :=
  match fs (normalizeCoveredPath fs gopath path wd).2 with
  | none => none
  | some content =>
    some ((removeSectionsMarkedWithInlineComment sections
        (splitChar '\n' content)).length,
      (configuredUntestedForFile content).1)

theorem processPath_of_generated (fs : Fs) (wd : String) (gopath : Option String)
    (path : String) (sections : List Section) (hg : generatedFile path = true) :
    processPath fs wd gopath path sections = some ([], false) := by
  unfold processPath
  rw [if_pos hg]

theorem processPath_exceeded_iff (fs : Fs) (wd : String) (gopath : Option String)
    (path : String) (sections : List Section) (r : List String × Bool)
    (hgen : generatedFile path = false)
    (h : processPath fs wd gopath path sections = some r) :
    (r.2 = true ↔
      ∃ a c, pathActualConfigured fs wd gopath path sections = some (a, c) ∧
        c < a) := by
  unfold processPath at h
  rw [if_neg (by simp [hgen])] at h
  unfold pathActualConfigured
  cases hc : fs (normalizeCoveredPath fs gopath path wd).2 with
  | none =>
    simp only [hc] at h
    exact Option.noConfusion h
  | some content =>
    simp only [hc] at h ⊢
    set A := (removeSectionsMarkedWithInlineComment sections
      (splitChar '\n' content)).length with hA
    set C := (configuredUntestedForFile content).1 with hC
    by_cases heq : A = C
    · rw [if_pos heq] at h
      injection h with h
      rw [← h]
      constructor
      · intro hb; exact absurd hb (by decide)
      · rintro ⟨a, c, hac, hlt⟩
        injection hac with hac
        injection hac with ha hc2
        omega
    · rw [if_neg heq] at h
      by_cases hlt : C < A
      · rw [if_pos hlt] at h
        injection h with h
        rw [← h]
        exact ⟨fun _ => ⟨A, C, rfl, hlt⟩, fun _ => rfl⟩
      · rw [if_neg hlt] at h
        injection h with h
        rw [← h]
        constructor
        · intro hb; exact absurd hb (by simp)
        · rintro ⟨a, c, hac, hlt2⟩
          injection hac with hac
          injection hac with ha hc2
          omega

theorem runGroups_some_all (fs : Fs) (wd : String) (gopath : Option String) :
    ∀ gs out code, runGroups fs wd gopath gs = some (out, code) →
      ∀ e ∈ gs, ∃ r, processPath fs wd gopath e.1 e.2 = some r := by
  intro gs
  induction gs with
  | nil => intro out code _ e he; simp at he
  | cons g rest ih =>
    intro out code h e he
    unfold runGroups at h
    cases hp : processPath fs wd gopath g.1 g.2 with
    | none => rw [hp] at h; exact Option.noConfusion h
    | some r1 =>
      rw [hp] at h
      cases hr : runGroups fs wd gopath rest with
      | none => rw [hr] at h; exact Option.noConfusion h
      | some r2 =>
        rcases List.mem_cons.mp he with he | he
        · subst he; exact ⟨r1, hp⟩
        · exact ih r2.1 r2.2 (by rw [hr]) e he

theorem runGroups_code_one_iff (fs : Fs) (wd : String) (gopath : Option String) :
    ∀ gs out code, runGroups fs wd gopath gs = some (out, code) →
      ((code = 0 ∨ code = 1) ∧
       (code = 1 ↔
         ∃ e ∈ gs, ∃ o, processPath fs wd gopath e.1 e.2 = some (o, true))) := by
  intro gs
  induction gs with
  | nil =>
    intro out code h
    injection h with h
    injection h with h1 h2
    subst h2
    refine ⟨Or.inl rfl, ?_⟩
    simp
  | cons g rest ih =>
    intro out code h
    unfold runGroups at h
    cases hp : processPath fs wd gopath g.1 g.2 with
    | none => rw [hp] at h; exact Option.noConfusion h
    | some r1 =>
      obtain ⟨o1, b1⟩ := r1
      rw [hp] at h
      cases hr : runGroups fs wd gopath rest with
      | none => rw [hr] at h; exact Option.noConfusion h
      | some r2 =>
        obtain ⟨o2, c2⟩ := r2
        rw [hr] at h
        injection h with h
        injection h with hout hcode
        subst hcode
        have ihr := ih o2 c2 hr
        cases b1 with
        | true =>
          refine ⟨Or.inr rfl, ?_⟩
          constructor
          · intro _
            exact ⟨g, List.mem_cons_self g rest, o1, hp⟩
          · intro _
            rfl
        | false =>
          refine ⟨ihr.1, ?_⟩
          show c2 = 1 ↔ _
          rw [ihr.2]
          constructor
          · rintro ⟨e, he, o, hpe⟩
            exact ⟨e, List.mem_cons_of_mem g he, o, hpe⟩
          · rintro ⟨e, he, o, hpe⟩
            rcases List.mem_cons.mp he with he | he
            · subst he
              rw [hp] at hpe
              injection hpe with hpe
              injection hpe with h1 h2
              exact absurd h2.symm (by decide)
            · exact ⟨e, he, o, hpe⟩

theorem insertPair_perm (e : String × List Section) :
    ∀ l, (insertPair e l).Perm (e :: l) := by
  intro l
  induction l with
  | nil => exact List.Perm.refl _
  | cons f rest ih =>
    unfold insertPair
    by_cases hlt : lexLt e.1.data f.1.data = true
    · rw [if_pos hlt]
    · rw [if_neg hlt]
      exact (ih.cons f).trans (List.Perm.swap e f rest)

theorem sortPairsByKey_perm : ∀ l, (sortPairsByKey l).Perm l := by
  intro l
  induction l with
  | nil => exact List.Perm.refl _
  | cons e rest ih =>
    unfold sortPairsByKey
    exact (insertPair_perm e (sortPairsByKey rest)).trans (ih.cons e)

/-- Claim C2: a completed run of `checkCoverage` returns exit code 0 or 1,
and returns 1 iff at least one non-generated grouped path has a
post-suppression region count strictly greater than its configured budget;
equal and below-budget paths (the latter only producing a non-fatal
warning) leave the exit code at 0. -/
theorem checkCoverage_exit (fs : Fs) (wd : String) (gopath : Option String)
    (covPath content : String) (out : List String) (code : Nat)
    (hread : fs covPath = some content)
    (hrun : checkCoverage fs wd gopath covPath = some (out, code)) :
    (code = 0 ∨ code = 1) ∧
    (code = 1 ↔ ∃ e ∈ groupSectionsByPath (untestedSections content),
      generatedFile e.1 = false ∧
      ∃ a c, pathActualConfigured fs wd gopath e.1 e.2 = some (a, c) ∧ c < a) := by
  unfold checkCoverage at hrun
  rw [hread] at hrun
  have hmain := runGroups_code_one_iff fs wd gopath _ out code hrun
  refine ⟨hmain.1, ?_⟩
  rw [hmain.2]
  constructor
  · rintro ⟨e, he, o, hpe⟩
    have he' : e ∈ groupSectionsByPath (untestedSections content) :=
      (sortPairsByKey_perm _).mem_iff.mp he
    have hgen : generatedFile e.1 = false := by
      by_cases hg : generatedFile e.1 = true
      · have hskip := processPath_of_generated fs wd gopath e.1 e.2 hg
        rw [hskip] at hpe
        injection hpe with hpe
        injection hpe with h1 h2
        exact absurd h2.symm (by decide)
      · exact Bool.eq_false_iff.mpr hg
    exact ⟨e, he', hgen,
      (processPath_exceeded_iff fs wd gopath e.1 e.2 (o, true) hgen hpe).mp rfl⟩
  · rintro ⟨e, he, hgen, a, c, hac, hlt⟩
    have he' : e ∈ sortPairsByKey (groupSectionsByPath (untestedSections content)) :=
      (sortPairsByKey_perm _).mem_iff.mpr he
    obtain ⟨r, hr⟩ := runGroups_some_all fs wd gopath _ out code hrun e he'
    obtain ⟨o1, b1⟩ := r
    have hiff := processPath_exceeded_iff fs wd gopath e.1 e.2 (o1, b1) hgen hr
    have hb : b1 = true := hiff.mpr ⟨a, c, hac, hlt⟩
    subst hb
    exact ⟨e, he', o1, hr⟩

theorem checkCoverage_exit_witness :
    ((0 : Nat) = 0 ∨ (0 : Nat) = 1) ∧
    ((0 : Nat) = 1 ↔ ∃ e ∈ groupSectionsByPath (untestedSections "mode: set\n"),
      generatedFile e.1 = false ∧
      ∃ a c, pathActualConfigured
        (fun p => if p = "c.out" then some "mode: set\n" else none) "/wd" none
        e.1 e.2 = some (a, c) ∧ c < a) :=
  checkCoverage_exit
    (fun p => if p = "c.out" then some "mode: set\n" else none)
    "/wd" none "c.out" "mode: set\n" [] 0 (by decide) (by decide)

/-- Claim C5: the per-path processing skips the budget comparison exactly
for paths of the generated-file convention: a generated path contributes no
diagnostic output and no exit-code change, for every file system and every
list of sections; a non-generated path is never skipped — its file is read,
so under a file system with no readable file the processing aborts
(fatally) instead. -/
theorem processPath_generated_skip (fs : Fs) (wd : String)
    (gopath : Option String) (path : String) (sections : List Section) :
    (generatedFile path = true →
        processPath fs wd gopath path sections = some ([], false)) ∧
    (generatedFile path = false →
        processPath (fun _ => none) wd gopath path sections = none) := by
  constructor
  · intro hg
    unfold processPath
    rw [if_pos hg]
  · intro hg
    unfold processPath
    rw [if_neg (by simp [hg])]

theorem processPath_generated_skip_witness :
    processPath (fun _ => none) "/wd" none "pkg/x_generated.go" [] =
        some ([], false) ∧
      processPath (fun _ => none) "/wd" none "a.go" [] = none :=
  ⟨(processPath_generated_skip (fun _ => none) "/wd" none "pkg/x_generated.go"
      []).1 (by decide),
   (processPath_generated_skip (fun _ => none) "/wd" none "a.go" []).2
      (by decide)⟩

/-- Claim C8: for every input order of a file's surviving regions, the
printed location lines (everything after the header line) list the regions
in non-decreasing `sortValue` order: they are the image of a permutation of
the sections that is non-decreasing in `sortValue`. -/
theorem printUntestedSections_sorted (sections : List Section)
    (displayPath details : String) :
    ∃ sorted : List Section, sorted.Perm sections ∧
      List.Chain' (fun a b => a.sortValue ≤ b.sortValue) sorted ∧
      (printUntestedSections sections displayPath details).drop 1 =
        sorted.map (fun s => displayPath ++ ":" ++ s.Location) := by
  refine ⟨sortSections sections, ?_, ?_, rfl⟩
  · exact List.perm_insertionSort _ sections
  · exact (List.sorted_insertionSort
      (fun a b => a.sortValue ≤ b.sortValue) sections).chain'

end GoTestcov
